import Mathlib

/-
Verification development for DRC, a Docker-registry retention pruner.

The embedding follows the two source modules:
  * `docker.rs` — the five registry calls (`list_repositories`, `list_tags`,
    `get_tag_digest`, `get_blob`, `delete_digest`) and the data model
    (`Repository`, `Tag`, `TagDigest`, `Blob`);
  * `main.rs` — the pipeline `process`, the task gatherer `collect_tasks`
    and the eligibility / age filters.

Network I/O is modelled by an `Oracle` describing, for a fixed registry
endpoint, what every HTTP exchange returns; the pipeline is a pure function
of the CLI arguments and the oracle, returning the list of HTTP calls it
issues (in order), the `info!` lines of the pruning phase, and the run's
overall result.
-/

namespace DRC

/-- `docker.rs` `Repository(pub String)`: a repository, identified by its name.
Equality is name equality, exactly the derived `PartialEq` on the wrapped
`String`. -/
structure Repository where
  name : String
deriving DecidableEq, Repr

/-- `docker.rs` `Tag(pub String, pub &Repository)`: a tag name plus a
back-reference to the owning repository.  The Rust reference is modelled by
value; two references are equal iff the referenced repositories are. -/
structure Tag where
  name : String
  repo : Repository
deriving DecidableEq, Repr

/-- `docker.rs` `TagDigest(String, pub &Tag)`: a manifest config digest plus the
tag it was resolved from. -/
structure TagDigest where
  digest : String
  tag : Tag
deriving DecidableEq, Repr

/-- `docker.rs` `Blob { tag_digest, date }`: a digest plus the parsed `created`
time in Unix epoch seconds.  The source uses `i64`; timestamps in this program
are nowhere near the `i64` bounds, so plain `Int` is used. -/
structure Blob where
  tag_digest : TagDigest
  date : Int
deriving DecidableEq, Repr

/-- The failure kinds a registry call can produce (all carried as
`anyhow::Error` in the source): transport failure at `.send().await?`, an
error HTTP status at `.error_for_status()?`, or a body / timestamp that does
not parse. -/
inductive RegErr where
  | transport
  | status (code : Nat)
  | parse
deriving DecidableEq, Repr

/-- Outcome of one HTTP exchange as the code observes it: either the request
itself failed (a `reqwest` transport error), or a response arrived with a
status code and a body.  The body type `β` is instantiated per endpoint with
an `Option` of the parsed shape, `none` standing for a body that is not JSON
of that shape. -/
inductive HttpResult (β : Type) where
  | transportErr
  | response (status : Nat) (body : β)
deriving DecidableEq, Repr

/-- `reqwest::Response::error_for_status`: errors exactly on client-error
(400–499) and server-error (500–599) statuses. -/
def error_for_status (st : Nat) : Bool := 400 ≤ st && st ≤ 599

/-- `docker.rs` `list_repositories` (lines 17–34): the catalog endpoint.  The
body is a JSON object with an optional `repositories` field; `serde` turns a
missing or `null` field into `None` (the inner `Option`), and
`unwrap_or(Vec::new())` turns that into the empty list. -/
def list_repositories (r : HttpResult (Option (Option (List String)))) :
    Except RegErr (List Repository) :=
  match r with
  | .transportErr => .error .transport
  | .response st body =>
    if error_for_status st then .error (.status st)
    else
      match body with
      | none => .error .parse
      | some repositories => .ok ((repositories.getD []).map Repository.mk)

/-- `docker.rs` `list_tags` (lines 40–57): the tag-list endpoint for one
repository; the same missing-field-means-empty convention as the catalog, and
every returned name is bound to the repository it was listed for. -/
def list_tags (repository : Repository)
    (r : HttpResult (Option (Option (List String)))) : Except RegErr (List Tag) :=
  match r with
  | .transportErr => .error .transport
  | .response st body =>
    if error_for_status st then .error (.status st)
    else
      match body with
      | none => .error .parse
      | some tags => .ok ((tags.getD []).map (fun x => Tag.mk x repository))

/-- `docker.rs` `get_tag_digest` (lines 63–83): the manifest endpoint for
(repository, tag); the body is the parsed `config.digest` string, `none` when
the body is not JSON containing that field. -/
def get_tag_digest (tag : Tag) (r : HttpResult (Option String)) :
    Except RegErr TagDigest :=
  match r with
  | .transportErr => .error .transport
  | .response st body =>
    if error_for_status st then .error (.status st)
    else
      match body with
      | none => .error .parse
      | some digest => .ok (TagDigest.mk digest tag)

/-- `docker.rs` `get_blob` (lines 92–110): the blob endpoint for
(repository, digest).  The outer `Option` is the JSON shape (a `created`
string field present), the inner `Option Int` is the ISO-8601 parse of that
string down to epoch seconds (`OffsetDateTime::parse` followed by
`unix_timestamp`), `none` when the timestamp does not parse. -/
def get_blob (digest : TagDigest) (r : HttpResult (Option (Option Int))) :
    Except RegErr Blob :=
  match r with
  | .transportErr => .error .transport
  | .response st body =>
    if error_for_status st then .error (.status st)
    else
      match body with
      | none => .error .parse
      | some created =>
        match created with
        | none => .error .parse
        | some date => .ok (Blob.mk digest date)

/-- `docker.rs` `delete_digest` (lines 112–119): DELETE on the manifest
endpoint; only transport and `error_for_status` can fail, the body is
ignored. -/
def delete_digest (r : HttpResult Unit) : Except RegErr Unit :=
  match r with
  | .transportErr => .error .transport
  | .response st _ =>
    if error_for_status st then .error (.status st) else .ok ()

/-- `collect::<Result<Vec<_>>>()` over an already-computed list of outcomes:
all the values in order when every outcome is `ok`, otherwise the first
`error` in iteration order. -/
def sequenceResults {E O : Type} : List (Except E O) → Except E (List O)
  | [] => .ok []
  | .error e :: _ => .error e
  | .ok x :: rest => (sequenceResults rest).map (fun xs => x :: xs)

/-- `main.rs` `collect_tasks` (lines 140–155): one task per input item via
`applied`; `join_all` awaits every task — so the whole outcome list
`input.map applied` is computed — and only then are the outcomes collected
into a single `Result`. -/
def collect_tasks {I O : Type} (applied : I → Except RegErr O) (input : List I) :
    Except RegErr (List O) :=
  sequenceResults (input.map applied)

/-- Rust `str::starts_with` with a string pattern: a byte-prefix test, which on
valid UTF-8 is a character-sequence prefix test; stated on the underlying
character list so that it evaluates by `decide`. -/
def strStartsWith (s p : String) : Bool := p.data.isPrefixOf s.data

/-- The distinct repositories occurring in a tag list: the key set of the
`HashMap<&Repository, Vec<Tag>>` built in `main.rs` lines 52–62.  `HashMap`
iteration order is unspecified; this model fixes one deterministic order for
the keys. -/
def repoKeys : List Tag → List Repository
  | [] => []
  | t :: ts => if t.repo ∈ repoKeys ts then repoKeys ts else t.repo :: repoKeys ts

/-- The grouped map entries of `main.rs` lines 52–62: each key together with
all tags owned by it.  Within a key the tags keep their encounter order,
exactly as they are pushed onto the key's `Vec`. -/
def groupTags (tags : List Tag) : List (Repository × List Tag) :=
  (repoKeys tags).map (fun r => (r, tags.filter (fun t => decide (t.repo = r))))

/-- `main.rs` lines 79–81: the number of tags named exactly `"latest"`.  The
source comment notes this is only ever 0 or 1 because tag names are unique
within a repository. -/
def latest_tag (tags : List Tag) : Nat :=
  (tags.filter (fun x => decide (x.name = "latest"))).length

/-- `main.rs` lines 83–85: the number of tags whose name starts with `"v"`. -/
def version_tags (tags : List Tag) : Nat :=
  (tags.filter (fun x => strStartsWith x.name "v")).length

/-- `main.rs` line 87: `required_tags = 1 + latest_tag + version_tags`. -/
def required_tags (tags : List Tag) : Nat := 1 + latest_tag tags + version_tags tags

/-- `main.rs` line 88: the repository-eligibility gate
`tags.len() > required_tags`. -/
def keepRepo (tags : List Tag) : Bool := required_tags tags < tags.length

/-- `main.rs` lines 65–98: keep only the groups that pass the gate, drop the
keys, and flatten the surviving groups into the list of tags that proceed to
digest resolution. -/
def to_process (tags : List Tag) : List Tag :=
  (((groupTags tags).filter (fun p => keepRepo p.2)).map Prod.snd).flatten

/-- The CLI arguments (`args.rs`).  `retention` is a `u32` number of
seconds. -/
structure Args where
  registry : String
  retention : Nat
  debug : Bool
  trace : Bool
  dry_run : Bool
deriving DecidableEq, Repr

/-- The registry's behaviour for one run, at the fixed endpoint
`args.registry` (the URL prefix of every request, absorbed here): what each
endpoint answers, keyed by the path parameters, plus the clock.  `now` models
`OffsetDateTime::now_utc().unix_timestamp()`; the source reads the clock in
`main.rs` line 106 and again inside `fmt_age`, both modelled as the same
instant. -/
structure Oracle where
  catalog : HttpResult (Option (Option (List String)))
  tagsList : String → HttpResult (Option (Option (List String)))
  manifest : String → String → HttpResult (Option String)
  blob : String → String → HttpResult (Option (Option Int))
  deleteManifest : String → String → HttpResult Unit
  now : Int

/-- One HTTP request issued by the run, identified by endpoint and path
parameters (the registry URL prefix is common to all of them). -/
inductive Call where
  | getCatalog
  | getTags (repo : String)
  | getManifest (repo tag : String)
  | getBlob (repo digest : String)
  | deleteManifest (repo digest : String)
deriving DecidableEq, Repr

/-- Whether a call is the DELETE-manifest call. -/
def Call.isDelete : Call → Bool
  | .deleteManifest _ _ => true
  | _ => false

/-- The user-visible `info!` lines of the pruning phase
(`main.rs` lines 111–121). -/
inductive Line where
  | dryRunHeader
  | wouldDelete (repo tag age : String)
  | deleting (repo tag : String)
deriving DecidableEq, Repr

/-- `main.rs` `fmt_age` (lines 126–138), with the clock read passed in
explicitly.  Division only ever happens on positive values here, where Rust
`i64` division and `Int` division agree. -/
def fmt_age (now epoch : Int) : String :=
  if 86400 < now - epoch then toString ((now - epoch) / 86400) ++ " Days"
  else if 3600 < now - epoch then toString ((now - epoch) / 3600) ++ " Hours"
  else if 60 < now - epoch then toString ((now - epoch) / 60) ++ " Minutes"
  else toString (now - epoch) ++ " Seconds"

/-- `main.rs` lines 47–50: one `list_tags` task per repository, all awaited,
results flattened. -/
def tagsStage (o : Oracle) (repositories : List Repository) :
    Except RegErr (List Tag) :=
  (collect_tasks (fun r => list_tags r (o.tagsList r.name)) repositories).map
    List.flatten

/-- `main.rs` line 101: one `get_tag_digest` task per surviving tag. -/
def digestStage (o : Oracle) (tags : List Tag) : Except RegErr (List TagDigest) :=
  collect_tasks (fun t => get_tag_digest t (o.manifest t.repo.name t.name)) tags

/-- `main.rs` line 103: one `get_blob` task per digest. -/
def blobStage (o : Oracle) (digests : List TagDigest) :
    Except RegErr (List Blob) :=
  collect_tasks (fun d => get_blob d (o.blob d.tag.repo.name d.digest)) digests

/-- The tag-list requests a repository list gives rise to. -/
def tagCalls (repositories : List Repository) : List Call :=
  repositories.map (fun r => Call.getTags r.name)

/-- The manifest requests a tag list gives rise to. -/
def digestCalls (tags : List Tag) : List Call :=
  tags.map (fun t => Call.getManifest t.repo.name t.name)

/-- The blob requests a digest list gives rise to. -/
def blobCalls (digests : List TagDigest) : List Call :=
  digests.map (fun d => Call.getBlob d.tag.repo.name d.digest)

/-- The DELETE request one deletable record gives rise to
(`docker.rs` line 114: repository `digest.1.1.0`, digest `digest.0`). -/
def mkDeleteCall (b : Blob) : Call :=
  Call.deleteManifest b.tag_digest.tag.repo.name b.tag_digest.digest

/-- `main.rs` line 118: the `info!` line printed before each delete. -/
def mkDeletingLine (b : Blob) : Line :=
  Line.deleting b.tag_digest.tag.repo.name b.tag_digest.tag.name

/-- `main.rs` line 114: the dry-run `info!` line for one record. -/
def mkWouldDeleteLine (now : Int) (b : Blob) : Line :=
  Line.wouldDelete b.tag_digest.tag.repo.name b.tag_digest.tag.name
    (fmt_age now b.date)

/-- `main.rs` line 106: the age cutoff, `now` minus `retention` seconds, as
epoch seconds (subtracting whole seconds commutes with the `unix_timestamp`
truncation). -/
def delete_before (now : Int) (retention : Nat) : Int := now - (retention : Int)

/-- `main.rs` lines 107–109: the records strictly older than the cutoff. -/
def to_delete (cutoff : Int) (blobs : List Blob) : List Blob :=
  blobs.filter (fun b => decide (b.date < cutoff))

/-- `main.rs` lines 117–120: the sequential delete loop.  Per record, in
order: the `info!` line, then the DELETE call; `?` aborts the loop with the
first failing delete's error.  Returns the calls issued, the lines emitted
and the loop's result. -/
def pruneLoop (o : Oracle) : List Blob → List Call × List Line × Except RegErr Unit
  | [] => ([], [], .ok ())
  | b :: rest =>
    match delete_digest
        (o.deleteManifest b.tag_digest.tag.repo.name b.tag_digest.digest) with
    | .error e => ([mkDeleteCall b], [mkDeletingLine b], .error e)
    | .ok _ =>
      (mkDeleteCall b :: (pruneLoop o rest).1,
       mkDeletingLine b :: (pruneLoop o rest).2.1,
       (pruneLoop o rest).2.2)

/-- `main.rs` lines 43–103: the read phase of `process` — catalog, tag lists,
eligibility filter, digests, blobs — with the HTTP calls it issues.  A stage
failure carries the calls issued up to and including that whole stage
(`join_all` completes every request of the failing stage). -/
def readPhase (o : Oracle) : List Call × Except RegErr (List Blob) :=
  match list_repositories o.catalog with
  | .error e => ([Call.getCatalog], .error e)
  | .ok repositories =>
    match tagsStage o repositories with
    | .error e => (Call.getCatalog :: tagCalls repositories, .error e)
    | .ok tags =>
      match digestStage o (to_process tags) with
      | .error e =>
        (Call.getCatalog :: tagCalls repositories ++ digestCalls (to_process tags),
         .error e)
      | .ok digests =>
        match blobStage o digests with
        | .error e =>
          (Call.getCatalog :: tagCalls repositories
             ++ digestCalls (to_process tags) ++ blobCalls digests, .error e)
        | .ok blobs =>
          (Call.getCatalog :: tagCalls repositories
             ++ digestCalls (to_process tags) ++ blobCalls digests, .ok blobs)

/-- The deletable records a run with this retention computes: the read phase's
blobs put through the age filter.  No part of this depends on the dry-run
flag. -/
def deletable_records (retention : Nat) (o : Oracle) : Except RegErr (List Blob) :=
  (readPhase o).2.map (to_delete (delete_before o.now retention))

/-- `main.rs` `process` (lines 43–124): the whole pipeline.  Returns every
HTTP call issued (in order), the `info!` lines of the pruning phase, and the
run's result.  The `debug!` progress lines are not modelled. -/
def process (args : Args) (o : Oracle) :
    List Call × List Line × Except RegErr Unit :=
  match readPhase o with
  | (calls, .error e) => (calls, [], .error e)
  | (calls, .ok blobs) =>
    if args.dry_run then
      (calls,
       Line.dryRunHeader ::
         (to_delete (delete_before o.now args.retention) blobs).map
           (mkWouldDeleteLine o.now),
       .ok ())
    else
      (calls ++ (pruneLoop o (to_delete (delete_before o.now args.retention) blobs)).1,
       (pruneLoop o (to_delete (delete_before o.now args.retention) blobs)).2.1,
       (pruneLoop o (to_delete (delete_before o.now args.retention) blobs)).2.2)

/-! ### A concrete registry scenario

One registry with two repositories: `"app"` holds the two plain tags `"aaa"`
and `"bbb"` (neither `"latest"` nor `v`-prefixed, so the gate passes with
`required = 1 < 2`), `"solo"` holds the single tag `"only"` (gate fails with
`required = 1`).  Every image was created at epoch second 0, far older than
the retention window. -/

def exRepo : Repository := ⟨"app"⟩

def exRepoSolo : Repository := ⟨"solo"⟩

def exTagA : Tag := ⟨"aaa", exRepo⟩

def exTagB : Tag := ⟨"bbb", exRepo⟩

def exTagSolo : Tag := ⟨"only", exRepoSolo⟩

def exTags : List Tag := [exTagA, exTagB, exTagSolo]

def exBlobA : Blob := ⟨⟨"sha-aaa", exTagA⟩, 0⟩

def exBlobB : Blob := ⟨⟨"sha-bbb", exTagB⟩, 0⟩

def exBlobs : List Blob := [exBlobA, exBlobB]

def exReadCalls : List Call :=
  [.getCatalog, .getTags "app", .getTags "solo",
   .getManifest "app" "aaa", .getManifest "app" "bbb",
   .getBlob "app" "sha-aaa", .getBlob "app" "sha-bbb"]

def exOracle : Oracle where
  catalog := .response 200 (some (some ["app", "solo"]))
  tagsList := fun r =>
    if r = "app" then .response 200 (some (some ["aaa", "bbb"]))
    else .response 200 (some (some ["only"]))
  manifest := fun _ t => .response 200 (some ("sha-" ++ t))
  blob := fun _ _ => .response 200 (some (some 0))
  deleteManifest := fun _ _ => .response 202 ()
  now := 1000000

/-- The same registry, but the DELETE of `"sha-bbb"` answers 500. -/
def exOracleFail : Oracle :=
  { exOracle with
    deleteManifest := fun _ d =>
      if d = "sha-bbb" then .response 500 () else .response 202 () }

/-- The same registry, but every manifest resolves to one shared digest. -/
def exOracleShared : Oracle :=
  { exOracle with manifest := fun _ _ => .response 200 (some "sha-same") }

def exArgs : Args := ⟨"http://registry.example", 3600, false, false, false⟩

def exArgsDry : Args := ⟨"http://registry.example", 3600, false, false, true⟩

/-- A toy task family for exercising `collect_tasks`: input `1` fails, all
other inputs succeed. -/
def exTasks : Nat → Except RegErr Nat := fun n =>
  if n = 1 then .error .transport else .ok (n * 10)

/-! ### Lemmas about result collection -/

theorem sequenceResults_map_ok {E O : Type} (out : List O) :
    sequenceResults (out.map (Except.ok : O → Except E O)) = .ok out := by
  induction out with
  | nil => rfl
  | cons x out ih => simp [sequenceResults, ih, Except.map]

theorem eq_map_ok_of_sequenceResults {E O : Type} {es : List (Except E O)}
    {out : List O} (h : sequenceResults es = .ok out) : es = out.map Except.ok := by
  induction es generalizing out with
  | nil =>
    simp only [sequenceResults, Except.ok.injEq] at h
    subst h
    rfl
  | cons hd rest ih =>
    cases hd with
    | error e => simp [sequenceResults] at h
    | ok x =>
      cases hsr : sequenceResults rest with
      | error e => simp [sequenceResults, hsr, Except.map] at h
      | ok l =>
        simp only [sequenceResults, hsr, Except.map, Except.ok.injEq] at h
        subst h
        simp [ih hsr]

theorem collect_tasks_map_ok {I O : Type} (applied : I → Except RegErr O)
    (g : I → O) :
    ∀ (input : List I), (∀ x ∈ input, applied x = .ok (g x)) →
      collect_tasks applied input = .ok (input.map g) := by
  intro input
  induction input with
  | nil => intro _; rfl
  | cons x xs ih =>
    intro h
    have hx : applied x = .ok (g x) := h x (List.mem_cons_self x xs)
    have hxs := ih (fun y hy => h y (List.mem_cons_of_mem x hy))
    show sequenceResults (List.map applied (x :: xs)) = _
    rw [List.map_cons, hx]
    simp only [sequenceResults]
    rw [show sequenceResults (List.map applied xs) = .ok (xs.map g) from hxs]
    simp [Except.map]

theorem collect_tasks_first_error {I O : Type} (applied : I → Except RegErr O) :
    ∀ (pre : List I) (x : I) (post : List I) (e : RegErr),
      (∀ y ∈ pre, ∃ z, applied y = .ok z) → applied x = .error e →
      collect_tasks applied (pre ++ x :: post) = .error e := by
  intro pre
  induction pre with
  | nil =>
    intro x post e _ hx
    show sequenceResults (List.map applied (x :: post)) = _
    rw [List.map_cons, hx]
    rfl
  | cons y pre ih =>
    intro x post e hpre hx
    obtain ⟨z, hz⟩ := hpre y (List.mem_cons_self y pre)
    show sequenceResults (List.map applied (y :: (pre ++ x :: post))) = _
    rw [List.map_cons, hz]
    simp only [sequenceResults]
    rw [show sequenceResults (List.map applied (pre ++ x :: post)) = .error e from
      ih x post e (fun w hw => hpre w (List.mem_cons_of_mem y hw)) hx]
    rfl

theorem mem_of_collect_tasks_ok {I O : Type} {applied : I → Except RegErr O}
    {input : List I} {out : List O} (h : collect_tasks applied input = .ok out) :
    ∀ y ∈ out, ∃ x ∈ input, applied x = .ok y := by
  intro y hy
  have hmap : input.map applied = out.map Except.ok :=
    eq_map_ok_of_sequenceResults h
  have hmem : Except.ok y ∈ input.map applied := by
    rw [hmap]
    exact List.mem_map.mpr ⟨y, hy, rfl⟩
  obtain ⟨x, hx, hax⟩ := List.mem_map.mp hmem
  exact ⟨x, hx, hax⟩

/-- If every success of `applied` determines its input through `g`, then a
fully successful stage's outputs map back onto its inputs, in order. -/
theorem map_of_pointwise {I O : Type} {applied : I → Except RegErr O} (g : O → I)
    (hfg : ∀ x y, applied x = .ok y → g y = x) :
    ∀ {out : List O} {input : List I},
      input.map applied = out.map Except.ok → out.map g = input := by
  intro out
  induction out with
  | nil =>
    intro input h
    cases input with
    | nil => rfl
    | cons x xs => simp at h
  | cons y out ih =>
    intro input h
    cases input with
    | nil => simp at h
    | cons x xs =>
      simp only [List.map_cons, List.cons.injEq] at h
      simp only [List.map_cons, hfg x y h.1, ih h.2]

/-! ### Per-call inversion lemmas -/

theorem get_tag_digest_ok_tag {t : Tag} {r : HttpResult (Option String)}
    {d : TagDigest} (h : get_tag_digest t r = .ok d) : d.tag = t := by
  cases r with
  | transportErr => simp [get_tag_digest] at h
  | response st body =>
    by_cases hst : error_for_status st = true
    · simp [get_tag_digest, hst] at h
    · cases body with
      | none => simp [get_tag_digest, hst] at h
      | some dg =>
        simp only [get_tag_digest, hst, if_false, Bool.false_eq_true,
          Except.ok.injEq] at h
        rw [← h]

theorem get_blob_ok_digest {d : TagDigest} {r : HttpResult (Option (Option Int))}
    {b : Blob} (h : get_blob d r = .ok b) : b.tag_digest = d := by
  cases r with
  | transportErr => simp [get_blob] at h
  | response st body =>
    by_cases hst : error_for_status st = true
    · simp [get_blob, hst] at h
    · cases body with
      | none => simp [get_blob, hst] at h
      | some created =>
        cases created with
        | none => simp [get_blob, hst] at h
        | some date =>
          simp only [get_blob, hst, if_false, Bool.false_eq_true,
            Except.ok.injEq] at h
          rw [← h]

/-- A successful digest stage produces exactly one record per input tag, in
input order, each record carrying the tag it was resolved from. -/
theorem digestStage_ok_map_tag {o : Oracle} {tps : List Tag} {ds : List TagDigest}
    (h : digestStage o tps = .ok ds) : ds.map TagDigest.tag = tps :=
  map_of_pointwise TagDigest.tag (fun _ _ hd => get_tag_digest_ok_tag hd)
    (eq_map_ok_of_sequenceResults h)

/-- A successful blob stage produces exactly one record per input digest, in
input order, each record carrying the digest it was inspected for. -/
theorem blobStage_ok_map_digest {o : Oracle} {ds : List TagDigest} {bs : List Blob}
    (h : blobStage o ds = .ok bs) : bs.map Blob.tag_digest = ds :=
  map_of_pointwise Blob.tag_digest (fun _ _ hb => get_blob_ok_digest hb)
    (eq_map_ok_of_sequenceResults h)

/-! ### Lemmas about the eligibility grouping -/

theorem mem_repoKeys_of_mem {tags : List Tag} {t : Tag} (h : t ∈ tags) :
    t.repo ∈ repoKeys tags := by
  induction tags with
  | nil => cases h
  | cons s ts ih =>
    rcases List.mem_cons.mp h with h | h
    · subst h
      by_cases hm : t.repo ∈ repoKeys ts
      · simp [repoKeys, hm]
      · simp [repoKeys, hm]
    · by_cases hm : s.repo ∈ repoKeys ts
      · simp [repoKeys, hm, ih h]
      · simp [repoKeys, hm, ih h]

/-- A tag survives the repository filter iff it was listed and its own
repository's group passes the gate. -/
theorem mem_to_process {tags : List Tag} {t : Tag} :
    t ∈ to_process tags ↔
      t ∈ tags ∧ keepRepo (tags.filter (fun x => decide (x.repo = t.repo))) = true := by
  unfold to_process groupTags
  constructor
  · intro h
    rw [List.mem_flatten] at h
    obtain ⟨g, hg, htg⟩ := h
    rw [List.mem_map] at hg
    obtain ⟨p, hp, rfl⟩ := hg
    rw [List.mem_filter] at hp
    obtain ⟨hpg, hkeep⟩ := hp
    rw [List.mem_map] at hpg
    obtain ⟨r, _, rfl⟩ := hpg
    rw [List.mem_filter] at htg
    obtain ⟨htags, hrepo⟩ := htg
    have hrt : t.repo = r := of_decide_eq_true hrepo
    subst hrt
    exact ⟨htags, hkeep⟩
  · rintro ⟨htags, hkeep⟩
    rw [List.mem_flatten]
    refine ⟨tags.filter (fun x => decide (x.repo = t.repo)), ?_, ?_⟩
    · rw [List.mem_map]
      refine ⟨(t.repo, tags.filter (fun x => decide (x.repo = t.repo))), ?_, rfl⟩
      rw [List.mem_filter]
      refine ⟨?_, hkeep⟩
      rw [List.mem_map]
      exact ⟨t.repo, mem_repoKeys_of_mem htags, rfl⟩
    · rw [List.mem_filter]
      exact ⟨htags, by simp⟩

/-! ### Lemmas about the delete loop -/

theorem pruneLoop_calls_mem {o : Oracle} :
    ∀ {l : List Blob} {c : Call}, c ∈ (pruneLoop o l).1 → ∃ b ∈ l, c = mkDeleteCall b := by
  intro l
  induction l with
  | nil => intro c hc; simp [pruneLoop] at hc
  | cons b rest ih =>
    intro c hc
    unfold pruneLoop at hc
    cases hdel : delete_digest
        (o.deleteManifest b.tag_digest.tag.repo.name b.tag_digest.digest) with
    | error e =>
      rw [hdel] at hc
      simp only [List.mem_singleton] at hc
      exact ⟨b, List.mem_cons_self b rest, hc⟩
    | ok u =>
      rw [hdel] at hc
      rcases List.mem_cons.mp hc with hc | hc
      · exact ⟨b, List.mem_cons_self b rest, hc⟩
      · obtain ⟨b', hb', hcb⟩ := ih hc
        exact ⟨b', List.mem_cons_of_mem b hb', hcb⟩

theorem pruneLoop_all_ok {o : Oracle} :
    ∀ {l : List Blob},
      (∀ b ∈ l, delete_digest
        (o.deleteManifest b.tag_digest.tag.repo.name b.tag_digest.digest) = .ok ()) →
      pruneLoop o l = (l.map mkDeleteCall, l.map mkDeletingLine, .ok ()) := by
  intro l
  induction l with
  | nil => intro _; rfl
  | cons b rest ih =>
    intro h
    have hb := h b (List.mem_cons_self b rest)
    have hrest := ih (fun x hx => h x (List.mem_cons_of_mem b hx))
    simp [pruneLoop, hb, hrest]

theorem pruneLoop_first_fail {o : Oracle} :
    ∀ (pre : List Blob) (b : Blob) (post : List Blob) (e : RegErr),
      (∀ x ∈ pre, delete_digest
        (o.deleteManifest x.tag_digest.tag.repo.name x.tag_digest.digest) = .ok ()) →
      delete_digest
        (o.deleteManifest b.tag_digest.tag.repo.name b.tag_digest.digest) = .error e →
      pruneLoop o (pre ++ b :: post) =
        (pre.map mkDeleteCall ++ [mkDeleteCall b],
         pre.map mkDeletingLine ++ [mkDeletingLine b], .error e) := by
  intro pre
  induction pre with
  | nil =>
    intro b post e _ hb
    simp [pruneLoop, hb]
  | cons x pre ih =>
    intro b post e hpre hb
    have hx := hpre x (List.mem_cons_self x pre)
    have hrest := ih b post e (fun y hy => hpre y (List.mem_cons_of_mem x hy)) hb
    simp [pruneLoop, hx, hrest]

/-! ### Characterizations of the read phase and of `process` -/

theorem readPhase_err_catalog {o : Oracle} {e : RegErr}
    (h1 : list_repositories o.catalog = .error e) :
    readPhase o = ([Call.getCatalog], .error e) := by
  unfold readPhase
  rw [h1]

theorem readPhase_err_tags {o : Oracle} {rs : List Repository} {e : RegErr}
    (h1 : list_repositories o.catalog = .ok rs)
    (h2 : tagsStage o rs = .error e) :
    readPhase o = (Call.getCatalog :: tagCalls rs, .error e) := by
  unfold readPhase
  simp only [h1, h2]

theorem readPhase_err_digests {o : Oracle} {rs : List Repository} {tags : List Tag}
    {e : RegErr} (h1 : list_repositories o.catalog = .ok rs)
    (h2 : tagsStage o rs = .ok tags)
    (h3 : digestStage o (to_process tags) = .error e) :
    readPhase o =
      (Call.getCatalog :: tagCalls rs ++ digestCalls (to_process tags), .error e) := by
  unfold readPhase
  simp only [h1, h2, h3]

theorem readPhase_err_blobs {o : Oracle} {rs : List Repository} {tags : List Tag}
    {ds : List TagDigest} {e : RegErr} (h1 : list_repositories o.catalog = .ok rs)
    (h2 : tagsStage o rs = .ok tags)
    (h3 : digestStage o (to_process tags) = .ok ds)
    (h4 : blobStage o ds = .error e) :
    readPhase o =
      (Call.getCatalog :: tagCalls rs ++ digestCalls (to_process tags)
         ++ blobCalls ds, .error e) := by
  unfold readPhase
  simp only [h1, h2, h3, h4]

theorem readPhase_ok {o : Oracle} {rs : List Repository} {tags : List Tag}
    {ds : List TagDigest} {bs : List Blob}
    (h1 : list_repositories o.catalog = .ok rs)
    (h2 : tagsStage o rs = .ok tags)
    (h3 : digestStage o (to_process tags) = .ok ds)
    (h4 : blobStage o ds = .ok bs) :
    readPhase o =
      (Call.getCatalog :: tagCalls rs ++ digestCalls (to_process tags)
         ++ blobCalls ds, .ok bs) := by
  unfold readPhase
  simp only [h1, h2, h3, h4]

theorem readPhase_ok_inv {o : Oracle} {calls : List Call} {bs : List Blob}
    (h : readPhase o = (calls, .ok bs)) :
    ∃ rs tags ds, list_repositories o.catalog = .ok rs ∧ tagsStage o rs = .ok tags ∧
      digestStage o (to_process tags) = .ok ds ∧ blobStage o ds = .ok bs := by
  cases h1 : list_repositories o.catalog with
  | error e => rw [readPhase_err_catalog h1] at h; simp at h
  | ok rs =>
    cases h2 : tagsStage o rs with
    | error e => rw [readPhase_err_tags h1 h2] at h; simp at h
    | ok tags =>
      cases h3 : digestStage o (to_process tags) with
      | error e => rw [readPhase_err_digests h1 h2 h3] at h; simp at h
      | ok ds =>
        cases h4 : blobStage o ds with
        | error e => rw [readPhase_err_blobs h1 h2 h3 h4] at h; simp at h
        | ok bs' =>
          rw [readPhase_ok h1 h2 h3 h4] at h
          simp only [Prod.mk.injEq, Except.ok.injEq] at h
          obtain ⟨hcalls, hbs⟩ := h
          subst hbs
          exact ⟨rs, tags, ds, rfl, h2, h3, h4⟩

theorem process_err {args : Args} {o : Oracle} {calls : List Call} {e : RegErr}
    (hr : readPhase o = (calls, .error e)) :
    process args o = (calls, [], .error e) := by
  unfold process
  simp only [hr]

theorem process_dry {args : Args} {o : Oracle} {calls : List Call} {bs : List Blob}
    (hr : readPhase o = (calls, .ok bs)) (hd : args.dry_run = true) :
    process args o =
      (calls,
       Line.dryRunHeader ::
         (to_delete (delete_before o.now args.retention) bs).map
           (mkWouldDeleteLine o.now),
       .ok ()) := by
  unfold process
  simp only [hr, hd, if_true]

theorem process_wet {args : Args} {o : Oracle} {calls : List Call} {bs : List Blob}
    (hr : readPhase o = (calls, .ok bs)) (hd : args.dry_run = false) :
    process args o =
      (calls ++ (pruneLoop o (to_delete (delete_before o.now args.retention) bs)).1,
       (pruneLoop o (to_delete (delete_before o.now args.retention) bs)).2.1,
       (pruneLoop o (to_delete (delete_before o.now args.retention) bs)).2.2) := by
  unfold process
  simp only [hr, hd, Bool.false_eq_true, if_false]

/-- None of the read-phase calls is a DELETE. -/
theorem readPhase_not_delete {o : Oracle} :
    ∀ c ∈ (readPhase o).1, c.isDelete = false := by
  have shape : ∀ (c : Call) (rs : List Repository) (tps : List Tag)
      (ds : List TagDigest),
      c ∈ Call.getCatalog :: tagCalls rs ++ digestCalls tps ++ blobCalls ds →
      c.isDelete = false := by
    intro c rs tps ds hc
    simp only [tagCalls, digestCalls, blobCalls, List.mem_cons, List.mem_append,
      List.mem_map] at hc
    rcases hc with ((rfl | ⟨r, -, rfl⟩) | ⟨t, -, rfl⟩) | ⟨d, -, rfl⟩ <;> rfl
  intro c hc
  cases h1 : list_repositories o.catalog with
  | error e =>
    rw [readPhase_err_catalog h1] at hc
    simp only [List.mem_singleton] at hc
    subst hc
    rfl
  | ok rs =>
    cases h2 : tagsStage o rs with
    | error e =>
      rw [readPhase_err_tags h1 h2] at hc
      exact shape c rs [] [] (by simpa [digestCalls, blobCalls] using hc)
    | ok tags =>
      cases h3 : digestStage o (to_process tags) with
      | error e =>
        rw [readPhase_err_digests h1 h2 h3] at hc
        exact shape c rs (to_process tags) [] (by simpa [blobCalls] using hc)
      | ok ds =>
        cases h4 : blobStage o ds with
        | error e =>
          rw [readPhase_err_blobs h1 h2 h3 h4] at hc
          exact shape c rs (to_process tags) ds hc
        | ok bs =>
          rw [readPhase_ok h1 h2 h3 h4] at hc
          exact shape c rs (to_process tags) ds hc

/-- Every read-phase call is issued by the full run, whatever the dry-run
flag. -/
theorem readPhase_calls_sub {args : Args} {o : Oracle} :
    ∀ c ∈ (readPhase o).1, c ∈ (process args o).1 := by
  intro c hc
  cases hres : (readPhase o).2 with
  | error e =>
    have hrp : readPhase o = ((readPhase o).1, .error e) := by rw [← hres]
    rw [process_err hrp]
    exact hc
  | ok bs =>
    have hrp : readPhase o = ((readPhase o).1, .ok bs) := by rw [← hres]
    cases hd : args.dry_run with
    | true =>
      rw [process_dry hrp hd]
      exact hc
    | false =>
      rw [process_wet hrp hd]
      exact List.mem_append_left _ hc

/-- Every call of the full run is a read-phase call or a DELETE. -/
theorem process_calls_split {args : Args} {o : Oracle} {c : Call}
    (hc : c ∈ (process args o).1) : c ∈ (readPhase o).1 ∨ c.isDelete = true := by
  cases hres : (readPhase o).2 with
  | error e =>
    have hrp : readPhase o = ((readPhase o).1, .error e) := by rw [← hres]
    rw [process_err hrp] at hc
    exact Or.inl hc
  | ok bs =>
    have hrp : readPhase o = ((readPhase o).1, .ok bs) := by rw [← hres]
    cases hd : args.dry_run with
    | true =>
      rw [process_dry hrp hd] at hc
      exact Or.inl hc
    | false =>
      rw [process_wet hrp hd] at hc
      rcases List.mem_append.mp hc with hc | hc
      · exact Or.inl hc
      · obtain ⟨b, -, rfl⟩ := pruneLoop_calls_mem hc
        exact Or.inr rfl

/-- Every DELETE call of the full run comes from one record of the run's
to-delete list. -/
theorem process_delete_mem {args : Args} {o : Oracle} {rn dg : String}
    (hc : Call.deleteManifest rn dg ∈ (process args o).1) :
    ∃ calls bs b, readPhase o = (calls, .ok bs)
      ∧ b ∈ to_delete (delete_before o.now args.retention) bs
      ∧ rn = b.tag_digest.tag.repo.name ∧ dg = b.tag_digest.digest := by
  have hnotread : Call.deleteManifest rn dg ∉ (readPhase o).1 := by
    intro hmem
    have hfalse := readPhase_not_delete _ hmem
    simp [Call.isDelete] at hfalse
  cases hres : (readPhase o).2 with
  | error e =>
    have hrp : readPhase o = ((readPhase o).1, .error e) := by rw [← hres]
    rw [process_err hrp] at hc
    exact absurd hc hnotread
  | ok bs =>
    have hrp : readPhase o = ((readPhase o).1, .ok bs) := by rw [← hres]
    cases hd : args.dry_run with
    | true =>
      rw [process_dry hrp hd] at hc
      exact absurd hc hnotread
    | false =>
      rw [process_wet hrp hd] at hc
      rcases List.mem_append.mp hc with hc | hc
      · exact absurd hc hnotread
      · obtain ⟨b, hb, hcb⟩ := pruneLoop_calls_mem hc
        simp only [mkDeleteCall] at hcb
        injection hcb with hrn hdg
        exact ⟨(readPhase o).1, bs, b, hrp, hb, hrn, hdg⟩

/-- Once the catalog and tag stages succeed, the run issues the manifest
request of every surviving tag (whatever happens later). -/
theorem getManifest_mem_process {args : Args} {o : Oracle} {rs : List Repository}
    {tags : List Tag} {t : Tag}
    (h1 : list_repositories o.catalog = .ok rs)
    (h2 : tagsStage o rs = .ok tags)
    (ht : t ∈ to_process tags) :
    Call.getManifest t.repo.name t.name ∈ (process args o).1 := by
  apply readPhase_calls_sub
  have hmem : Call.getManifest t.repo.name t.name ∈ digestCalls (to_process tags) :=
    List.mem_map.mpr ⟨t, ht, rfl⟩
  cases h3 : digestStage o (to_process tags) with
  | error e =>
    rw [readPhase_err_digests h1 h2 h3]
    exact List.mem_append_right _ hmem
  | ok ds =>
    cases h4 : blobStage o ds with
    | error e =>
      rw [readPhase_err_blobs h1 h2 h3 h4]
      exact List.mem_append_left _ (List.mem_append_right _ hmem)
    | ok bs =>
      rw [readPhase_ok h1 h2 h3 h4]
      exact List.mem_append_left _ (List.mem_append_right _ hmem)

/-- Once the catalog stage succeeds, the run issues the tag-list request of
every listed repository, even when the tag stage (or any later stage)
fails. -/
theorem getTags_mem_process {args : Args} {o : Oracle} {rs : List Repository}
    {r : Repository} (h1 : list_repositories o.catalog = .ok rs) (hr : r ∈ rs) :
    Call.getTags r.name ∈ (process args o).1 := by
  apply readPhase_calls_sub
  have hmem : Call.getTags r.name ∈ Call.getCatalog :: tagCalls rs :=
    List.mem_cons_of_mem _ (List.mem_map.mpr ⟨r, hr, rfl⟩)
  cases h2 : tagsStage o rs with
  | error e =>
    rw [readPhase_err_tags h1 h2]
    exact hmem
  | ok tags =>
    cases h3 : digestStage o (to_process tags) with
    | error e =>
      rw [readPhase_err_digests h1 h2 h3]
      exact List.mem_append_left _ hmem
    | ok ds =>
      cases h4 : blobStage o ds with
      | error e =>
        rw [readPhase_err_blobs h1 h2 h3 h4]
        exact List.mem_append_left _ (List.mem_append_left _ hmem)
      | ok bs =>
        rw [readPhase_ok h1 h2 h3 h4]
        exact List.mem_append_left _ (List.mem_append_left _ hmem)

/-- Once the digest stage succeeds, the run issues the blob request of every
resolved digest. -/
theorem getBlob_mem_process (args : Args) {o : Oracle} {rs : List Repository}
    {tags : List Tag} {ds : List TagDigest} {d : TagDigest}
    (h1 : list_repositories o.catalog = .ok rs)
    (h2 : tagsStage o rs = .ok tags)
    (h3 : digestStage o (to_process tags) = .ok ds) (hd : d ∈ ds) :
    Call.getBlob d.tag.repo.name d.digest ∈ (process args o).1 := by
  apply readPhase_calls_sub
  have hmem : Call.getBlob d.tag.repo.name d.digest ∈ blobCalls ds :=
    List.mem_map.mpr ⟨d, hd, rfl⟩
  cases h4 : blobStage o ds with
  | error e =>
    rw [readPhase_err_blobs h1 h2 h3 h4]
    exact List.mem_append_right _ hmem
  | ok bs =>
    rw [readPhase_ok h1 h2 h3 h4]
    exact List.mem_append_right _ hmem

/-- Conversely, a manifest request for some (repository, tag) pair in the
read-phase trace can only come from a surviving tag. -/
theorem readPhase_getManifest_inv {o : Oracle} {rs : List Repository}
    {tags : List Tag} {rn tn : String}
    (h1 : list_repositories o.catalog = .ok rs)
    (h2 : tagsStage o rs = .ok tags)
    (hc : Call.getManifest rn tn ∈ (readPhase o).1) :
    ∃ t ∈ to_process tags, t.repo.name = rn ∧ t.name = tn := by
  have shape : ∀ (rs' : List Repository) (tps : List Tag) (ds : List TagDigest),
      Call.getManifest rn tn ∈
        Call.getCatalog :: tagCalls rs' ++ digestCalls tps ++ blobCalls ds →
      ∃ t ∈ tps, t.repo.name = rn ∧ t.name = tn := by
    intro rs' tps ds h
    simp only [tagCalls, digestCalls, blobCalls, List.mem_cons, List.mem_append,
      List.mem_map] at h
    rcases h with ((h | ⟨r, -, h⟩) | ⟨t, ht, h⟩) | ⟨d, -, h⟩
    · exact absurd h (by simp)
    · exact absurd h (by simp)
    · injection h with hr htn
      exact ⟨t, ht, hr, htn⟩
    · exact absurd h (by simp)
  cases h3 : digestStage o (to_process tags) with
  | error e =>
    rw [readPhase_err_digests h1 h2 h3] at hc
    exact shape rs (to_process tags) [] (by simpa [blobCalls] using hc)
  | ok ds =>
    cases h4 : blobStage o ds with
    | error e =>
      rw [readPhase_err_blobs h1 h2 h3 h4] at hc
      exact shape rs (to_process tags) ds hc
    | ok bs =>
      rw [readPhase_ok h1 h2 h3 h4] at hc
      exact shape rs (to_process tags) ds hc

/-- Repositories are identified by name: equal names mean equal values. -/
theorem Repository.eq_of_name_eq {a b : Repository} (h : a.name = b.name) :
    a = b := by
  cases a
  cases b
  simpa using h

/-! ### Filtering the trace by call kind -/

theorem filter_not_delete_of {l : List Call} (h : ∀ c ∈ l, c.isDelete = false) :
    l.filter (fun c => !c.isDelete) = l :=
  List.filter_eq_self.mpr (by intro a ha; rw [h a ha]; rfl)

theorem filter_isDelete_nil {l : List Call} (h : ∀ c ∈ l, c.isDelete = false) :
    l.filter Call.isDelete = [] :=
  List.filter_eq_nil_iff.mpr (by intro a ha; rw [h a ha]; simp)

/-- Removing the DELETE calls from a run's trace leaves exactly the read-phase
trace, whatever the dry-run flag and whatever the outcome. -/
theorem process_filter_not_delete {args : Args} {o : Oracle} :
    (process args o).1.filter (fun c => !c.isDelete) = (readPhase o).1 := by
  cases hres : (readPhase o).2 with
  | error e =>
    have hrp : readPhase o = ((readPhase o).1, .error e) := by rw [← hres]
    rw [process_err hrp]
    exact filter_not_delete_of readPhase_not_delete
  | ok bs =>
    have hrp : readPhase o = ((readPhase o).1, .ok bs) := by rw [← hres]
    cases hd : args.dry_run with
    | true =>
      rw [process_dry hrp hd]
      exact filter_not_delete_of readPhase_not_delete
    | false =>
      rw [process_wet hrp hd]
      show ((readPhase o).1 ++ _).filter _ = _
      rw [List.filter_append, filter_not_delete_of readPhase_not_delete]
      have hnil : (pruneLoop o
          (to_delete (delete_before o.now args.retention) bs)).1.filter
            (fun c => !c.isDelete) = [] := by
        apply List.filter_eq_nil_iff.mpr
        intro c hcmem
        obtain ⟨b, -, rfl⟩ := pruneLoop_calls_mem hcmem
        simp [mkDeleteCall, Call.isDelete]
      rw [hnil, List.append_nil]

/-- In a non-dry run the DELETE calls of the trace are exactly the delete
loop's calls. -/
theorem process_filter_delete {args : Args} {o : Oracle} {calls : List Call}
    {bs : List Blob} (hr : readPhase o = (calls, .ok bs))
    (hd : args.dry_run = false) :
    (process args o).1.filter Call.isDelete =
      (pruneLoop o (to_delete (delete_before o.now args.retention) bs)).1 := by
  rw [process_wet hr hd]
  show (calls ++ _).filter _ = _
  rw [List.filter_append]
  have hcalls : calls.filter Call.isDelete = [] := by
    apply filter_isDelete_nil
    intro c hc
    apply readPhase_not_delete
    rw [hr]
    exact hc
  have hkeep : (pruneLoop o
      (to_delete (delete_before o.now args.retention) bs)).1.filter
        Call.isDelete =
      (pruneLoop o (to_delete (delete_before o.now args.retention) bs)).1 := by
    apply List.filter_eq_self.mpr
    intro c hcmem
    obtain ⟨b, -, rfl⟩ := pruneLoop_calls_mem hcmem
    rfl
  rw [hcalls, hkeep, List.nil_append]

/-! ### The claims -/

/-- C1, counterexample: the run can delete every tag of a repository.  In the
example registry, `"app"`'s tag list is exactly `["aaa", "bbb"]`, yet the run
issues a DELETE for both tags' digests and finishes successfully, leaving no
undeleted tag in `"app"`. -/
theorem claim_C1_counterexample :
    list_tags exRepo (exOracle.tagsList "app") = .ok [exTagA, exTagB]
    ∧ Call.deleteManifest "app" "sha-aaa" ∈ (process exArgs exOracle).1
    ∧ Call.deleteManifest "app" "sha-bbb" ∈ (process exArgs exOracle).1
    ∧ (process exArgs exOracle).2.2 = .ok () :=
  ⟨rfl, by decide, by decide, rfl⟩

/-- C1, amended: the guard is only repository-level — a repository whose tag
count does not exceed `required` has none of its tags deleted (no DELETE call
with its name is ever issued); for a repository that passes the gate, every
tag (even the last ones) may be deleted, as the counterexample shows. -/
theorem claim_C1_amended (args : Args) (o : Oracle) (rs : List Repository)
    (tags : List Tag) (r : Repository)
    (h1 : list_repositories o.catalog = .ok rs)
    (h2 : tagsStage o rs = .ok tags)
    (hg : keepRepo (tags.filter (fun x => decide (x.repo = r))) = false) :
    ∀ dg : String, Call.deleteManifest r.name dg ∉ (process args o).1 := by
  intro dg hmem
  obtain ⟨calls, bs, b, hrp, hb, hrn, -⟩ := process_delete_mem hmem
  obtain ⟨rs', tags', ds, h1', h2', h3', h4'⟩ := readPhase_ok_inv hrp
  rw [h1] at h1'
  injection h1' with hrs
  subst hrs
  rw [h2] at h2'
  injection h2' with htags
  subst htags
  have hb' : b ∈ bs.filter
      (fun x => decide (x.date < delete_before o.now args.retention)) := hb
  have hbmem : b ∈ bs := List.mem_of_mem_filter hb'
  have hd : b.tag_digest ∈ ds := by
    rw [← blobStage_ok_map_digest h4']
    exact List.mem_map.mpr ⟨b, hbmem, rfl⟩
  have htmem : b.tag_digest.tag ∈ to_process tags := by
    rw [← digestStage_ok_map_tag h3']
    exact List.mem_map.mpr ⟨b.tag_digest, hd, rfl⟩
  have hkeep := (mem_to_process.mp htmem).2
  have hrepo : b.tag_digest.tag.repo = r := Repository.eq_of_name_eq hrn.symm
  rw [hrepo] at hkeep
  rw [hg] at hkeep
  exact Bool.false_ne_true hkeep

/-- C1, amended, at a concrete input: the ineligible repository `"solo"`
never sees a DELETE. -/
theorem claim_C1_amended_witness :
    Call.deleteManifest "solo" "sha-only" ∉ (process exArgs exOracle).1 :=
  claim_C1_amended exArgs exOracle [⟨"app"⟩, ⟨"solo"⟩] exTags exRepoSolo
    rfl rfl (by decide) "sha-only"

/-- C2: the eligibility gate holds iff the tag count strictly exceeds
`1 + latest_count + version_count` (with `latest_count` the 0/1 indicator of
a `"latest"` tag, under the source's invariant that `"latest"` occurs at most
once in a repository); and no tag of a repository failing the gate is ever
resolved to a digest — no manifest request with that repository's name is
issued, regardless of image age. -/
theorem claim_C2 :
    (∀ g : List Tag, latest_tag g ≤ 1 →
      (keepRepo g = true ↔
        g.length > 1 + (if ∃ t ∈ g, t.name = "latest" then 1 else 0)
          + version_tags g))
    ∧ (∀ (args : Args) (o : Oracle) (rs : List Repository) (tags : List Tag)
        (r : Repository),
        list_repositories o.catalog = .ok rs →
        tagsStage o rs = .ok tags →
        keepRepo (tags.filter (fun x => decide (x.repo = r))) = false →
        ∀ tg : String, Call.getManifest r.name tg ∉ (process args o).1) := by
  constructor
  · intro g huniq
    have hlatest : latest_tag g = if ∃ t ∈ g, t.name = "latest" then 1 else 0 := by
      by_cases hex : ∃ t ∈ g, t.name = "latest"
      · obtain ⟨t, ht, hn⟩ := hex
        have hmem : t ∈ g.filter (fun x => decide (x.name = "latest")) :=
          List.mem_filter.mpr ⟨ht, by simp [hn]⟩
        have hpos : 0 < latest_tag g := List.length_pos_of_mem hmem
        rw [if_pos ⟨t, ht, hn⟩]
        omega
      · have hnil : g.filter (fun x => decide (x.name = "latest")) = [] := by
          apply List.filter_eq_nil_iff.mpr
          intro a ha hdec
          exact hex ⟨a, ha, of_decide_eq_true hdec⟩
        rw [if_neg hex]
        simp only [latest_tag, hnil, List.length_nil]
    simp only [keepRepo, required_tags, hlatest, decide_eq_true_eq, gt_iff_lt]
  · intro args o rs tags r h1 h2 hg tg hmem
    rcases process_calls_split hmem with hmem | hdel
    · obtain ⟨t, ht, hrn, -⟩ := readPhase_getManifest_inv h1 h2 hmem
      have hkeep := (mem_to_process.mp ht).2
      have hrepo : t.repo = r := Repository.eq_of_name_eq hrn
      rw [hrepo] at hkeep
      rw [hg] at hkeep
      exact Bool.false_ne_true hkeep
    · simp [Call.isDelete] at hdel

/-- C2 at concrete inputs: the two-plain-tag group passes the gate as the
indicator formula predicts, and the ineligible `"solo"` never gets a manifest
request. -/
theorem claim_C2_witness :
    (keepRepo [exTagA, exTagB] = true ↔
      ([exTagA, exTagB] : List Tag).length >
        1 + (if ∃ t ∈ [exTagA, exTagB], t.name = "latest" then 1 else 0)
          + version_tags [exTagA, exTagB])
    ∧ Call.getManifest "solo" "only" ∉ (process exArgs exOracle).1 :=
  ⟨claim_C2.1 [exTagA, exTagB] (by decide),
   claim_C2.2 exArgs exOracle [⟨"app"⟩, ⟨"solo"⟩] exTags exRepoSolo
     rfl rfl (by decide) "only"⟩

/-- C3: every tag of a repository that passes the gate survives the filter,
gets its manifest request issued, is resolved to a digest whose blob request
is issued, and its record is subjected to the age cutoff — no tag (not even
`"latest"` or a `v`-prefixed one) is exempted. -/
theorem claim_C3 (args : Args) (o : Oracle) (rs : List Repository)
    (tags : List Tag) (t : Tag)
    (h1 : list_repositories o.catalog = .ok rs)
    (h2 : tagsStage o rs = .ok tags)
    (ht : t ∈ tags)
    (helig : keepRepo (tags.filter (fun x => decide (x.repo = t.repo))) = true) :
    t ∈ to_process tags
    ∧ Call.getManifest t.repo.name t.name ∈ (process args o).1
    ∧ (∀ ds, digestStage o (to_process tags) = .ok ds →
        ∃ d ∈ ds, d.tag = t ∧ Call.getBlob t.repo.name d.digest ∈ (process args o).1)
    ∧ (∀ ds bs, digestStage o (to_process tags) = .ok ds →
        blobStage o ds = .ok bs →
        ∃ b ∈ bs, b.tag_digest.tag = t ∧
          (b ∈ to_delete (delete_before o.now args.retention) bs ↔
            b.date < delete_before o.now args.retention)) := by
  have htp : t ∈ to_process tags := mem_to_process.mpr ⟨ht, helig⟩
  refine ⟨htp, getManifest_mem_process h1 h2 htp, ?_, ?_⟩
  · intro ds h3
    have hmap := digestStage_ok_map_tag h3
    have hmem : t ∈ ds.map TagDigest.tag := by
      rw [hmap]
      exact htp
    obtain ⟨d, hd, hdt⟩ := List.mem_map.mp hmem
    refine ⟨d, hd, hdt, ?_⟩
    have hcall := getBlob_mem_process args h1 h2 h3 hd
    rw [hdt] at hcall
    exact hcall
  · intro ds bs h3 h4
    have hmapd := digestStage_ok_map_tag h3
    have hmapb := blobStage_ok_map_digest h4
    have hmem : t ∈ ds.map TagDigest.tag := by
      rw [hmapd]
      exact htp
    obtain ⟨d, hd, hdt⟩ := List.mem_map.mp hmem
    have hmem' : d ∈ bs.map Blob.tag_digest := by
      rw [hmapb]
      exact hd
    obtain ⟨b, hb, hbd⟩ := List.mem_map.mp hmem'
    refine ⟨b, hb, by rw [hbd, hdt], ?_⟩
    simp [to_delete, List.mem_filter, hb]

/-- C3 at a concrete input: `"aaa"` of the eligible `"app"` survives the
filter and its manifest request is issued. -/
theorem claim_C3_witness :
    exTagA ∈ to_process exTags
    ∧ Call.getManifest "app" "aaa" ∈ (process exArgs exOracle).1 := by
  have h := claim_C3 exArgs exOracle [⟨"app"⟩, ⟨"solo"⟩] exTags exTagA
    rfl rfl (by decide) (by decide)
  exact ⟨h.1, h.2.1⟩

/-- C4: an ImageRecord is selected for deletion iff its timestamp is strictly
below `now - retention_seconds`; a record exactly at the cutoff is retained
(the boundary is exclusive). -/
theorem claim_C4 (b : Blob) (blobs : List Blob) (now : Int) (retention : Nat) :
    (b ∈ to_delete (delete_before now retention) blobs ↔
      b ∈ blobs ∧ b.date < now - (retention : Int))
    ∧ (b.date = now - (retention : Int) →
        b ∉ to_delete (delete_before now retention) blobs) := by
  have hmain : b ∈ to_delete (delete_before now retention) blobs ↔
      b ∈ blobs ∧ b.date < now - (retention : Int) := by
    simp [to_delete, delete_before, List.mem_filter]
  refine ⟨hmain, ?_⟩
  intro heq hmem
  have hlt := (hmain.mp hmem).2
  omega

/-- C4 at concrete inputs: a record one second older than the cutoff is
selected, a record exactly at the cutoff is retained. -/
theorem claim_C4_witness :
    (⟨⟨"sha", ⟨"t", ⟨"r"⟩⟩⟩, 6⟩ : Blob) ∈
      to_delete (delete_before 10 3) [⟨⟨"sha", ⟨"t", ⟨"r"⟩⟩⟩, 6⟩]
    ∧ (⟨⟨"sha", ⟨"t", ⟨"r"⟩⟩⟩, 7⟩ : Blob) ∉
      to_delete (delete_before 10 3) [⟨⟨"sha", ⟨"t", ⟨"r"⟩⟩⟩, 7⟩] :=
  ⟨(claim_C4 _ _ 10 3).1.mpr ⟨by decide, by decide⟩,
   (claim_C4 _ _ 10 3).2 (by decide)⟩

/-- C5: with the dry-run flag set the run issues no DELETE call and prints
(after the fixed header line) exactly one line per deletable record, in
record order; with the flag unset and all deletes succeeding it issues
exactly one DELETE per deletable record, sequentially in record order. -/
theorem claim_C5 (args : Args) (o : Oracle) (calls : List Call) (bs : List Blob)
    (hr : readPhase o = (calls, .ok bs)) :
    (args.dry_run = true →
      (∀ c ∈ (process args o).1, c.isDelete = false)
      ∧ (process args o).2.1 =
          Line.dryRunHeader ::
            (to_delete (delete_before o.now args.retention) bs).map
              (mkWouldDeleteLine o.now))
    ∧ (args.dry_run = false →
      (∀ b ∈ to_delete (delete_before o.now args.retention) bs,
          delete_digest (o.deleteManifest b.tag_digest.tag.repo.name
            b.tag_digest.digest) = .ok ()) →
      (process args o).1.filter Call.isDelete =
        (to_delete (delete_before o.now args.retention) bs).map mkDeleteCall
      ∧ (process args o).2.1 =
        (to_delete (delete_before o.now args.retention) bs).map mkDeletingLine) := by
  constructor
  · intro hd
    constructor
    · intro c hc
      rw [process_dry hr hd] at hc
      apply readPhase_not_delete
      rw [hr]
      exact hc
    · rw [process_dry hr hd]
  · intro hd hok
    have hloop := pruneLoop_all_ok hok
    constructor
    · rw [process_filter_delete hr hd, hloop]
    · rw [process_wet hr hd, hloop]

/-- C5 at a concrete input: the dry run over the example registry prints the
header plus one line per deletable record and issues no DELETE. -/
theorem claim_C5_witness :
    (∀ c ∈ (process exArgsDry exOracle).1, c.isDelete = false)
    ∧ (process exArgsDry exOracle).2.1 =
        Line.dryRunHeader ::
          (to_delete (delete_before exOracle.now exArgsDry.retention) exBlobs).map
            (mkWouldDeleteLine exOracle.now) :=
  (claim_C5 exArgsDry exOracle exReadCalls exBlobs rfl).1 rfl

/-- C6: in a non-dry run, when the delete of record `b` fails after the
records of `pre` deleted successfully, the run stops with that error: the
DELETE trace is exactly `pre`'s calls plus the failing one (nothing for the
remaining records, and the completed deletions stay issued — nothing undoes
them), and the run's result is that delete's error. -/
theorem claim_C6 (args : Args) (o : Oracle) (calls : List Call) (bs : List Blob)
    (pre post : List Blob) (b : Blob) (e : RegErr)
    (hr : readPhase o = (calls, .ok bs))
    (hw : args.dry_run = false)
    (hsplit : to_delete (delete_before o.now args.retention) bs = pre ++ b :: post)
    (hpre : ∀ x ∈ pre, delete_digest (o.deleteManifest x.tag_digest.tag.repo.name
      x.tag_digest.digest) = .ok ())
    (hb : delete_digest (o.deleteManifest b.tag_digest.tag.repo.name
      b.tag_digest.digest) = .error e) :
    (process args o).2.2 = .error e
    ∧ (process args o).1.filter Call.isDelete =
        pre.map mkDeleteCall ++ [mkDeleteCall b]
    ∧ (process args o).2.1 = pre.map mkDeletingLine ++ [mkDeletingLine b] := by
  have hloop := pruneLoop_first_fail pre b post e hpre hb
  refine ⟨?_, ?_, ?_⟩
  · rw [process_wet hr hw, hsplit, hloop]
  · rw [process_filter_delete hr hw, hsplit, hloop]
  · rw [process_wet hr hw, hsplit, hloop]

/-- C6 at a concrete input: with the second DELETE answering 500, the run
deletes the first record, attempts the second, issues nothing further and
ends with `status 500`. -/
theorem claim_C6_witness :
    (process exArgs exOracleFail).2.2 = .error (.status 500)
    ∧ (process exArgs exOracleFail).1.filter Call.isDelete =
        [Call.deleteManifest "app" "sha-aaa", Call.deleteManifest "app" "sha-bbb"] := by
  have h := claim_C6 exArgs exOracleFail exReadCalls exBlobs [exBlobA] []
    exBlobB (.status 500) rfl rfl rfl
    (by
      intro x hx
      simp only [List.mem_singleton] at hx
      subst hx
      rfl)
    rfl
  exact ⟨h.1, h.2.1.trans (by decide)⟩

/-- C7: a listing response with a missing or null `repositories`/`tags` field
is an empty list, not an error; a listing fails only on a transport failure,
an error status, or a body that is not JSON of the expected shape. -/
theorem claim_C7 (repository : Repository) (st : Nat)
    (h2xx : 200 ≤ st ∧ st < 300) :
    (list_repositories (.response st (some none)) = .ok []
      ∧ list_tags repository (.response st (some none)) = .ok [])
    ∧ (∀ (r : HttpResult (Option (Option (List String)))) (e : RegErr),
        list_repositories r = .error e →
        r = .transportErr
        ∨ (∃ s b, r = .response s b ∧ 400 ≤ s ∧ s ≤ 599)
        ∨ (∃ s, r = .response s none))
    ∧ (∀ (r : HttpResult (Option (Option (List String)))) (e : RegErr),
        list_tags repository r = .error e →
        r = .transportErr
        ∨ (∃ s b, r = .response s b ∧ 400 ≤ s ∧ s ≤ 599)
        ∨ (∃ s, r = .response s none)) := by
  have hstf : error_for_status st = false := by
    simp only [error_for_status, Bool.and_eq_false_iff, decide_eq_false_iff_not]
    omega
  refine ⟨⟨?_, ?_⟩, ?_, ?_⟩
  · simp [list_repositories, hstf]
  · simp [list_tags, hstf]
  · intro r e h
    cases r with
    | transportErr => exact Or.inl rfl
    | response s body =>
      by_cases hs : error_for_status s = true
      · refine Or.inr (Or.inl ⟨s, body, rfl, ?_⟩)
        simpa [error_for_status, Bool.and_eq_true, decide_eq_true_eq] using hs
      · cases body with
        | none => exact Or.inr (Or.inr ⟨s, rfl⟩)
        | some opt => simp [list_repositories, hs] at h
  · intro r e h
    cases r with
    | transportErr => exact Or.inl rfl
    | response s body =>
      by_cases hs : error_for_status s = true
      · refine Or.inr (Or.inl ⟨s, body, rfl, ?_⟩)
        simpa [error_for_status, Bool.and_eq_true, decide_eq_true_eq] using hs
      · cases body with
        | none => exact Or.inr (Or.inr ⟨s, rfl⟩)
        | some opt => simp [list_tags, hs] at h

/-- C7 at a concrete input: a 200 response whose optional field is missing
yields the empty repository / tag list. -/
theorem claim_C7_witness :
    list_repositories (.response 200 (some none)) = .ok []
    ∧ list_tags (Repository.mk "app") (.response 200 (some none)) = .ok [] :=
  (claim_C7 (Repository.mk "app") 200 (by decide)).1

/-- C8: a concurrent stage computes every task's outcome (its request appears
in the trace even when a sibling fails — shown for the tag stage, whose
requests are all issued once the catalog is listed, whatever happens later);
if every task succeeds the stage returns the outputs in input order, and if
any fails the stage returns the first error in input order and no outputs. -/
theorem claim_C8 {I O : Type} (applied : I → Except RegErr O) (input : List I) :
    (∀ g : I → O, (∀ x ∈ input, applied x = .ok (g x)) →
        collect_tasks applied input = .ok (input.map g))
    ∧ (∀ (pre : List I) (x : I) (post : List I) (e : RegErr),
        input = pre ++ x :: post →
        (∀ y ∈ pre, ∃ z, applied y = .ok z) →
        applied x = .error e →
        collect_tasks applied input = .error e)
    ∧ (∀ (args : Args) (o : Oracle) (rs : List Repository),
        list_repositories o.catalog = .ok rs →
        ∀ r ∈ rs, Call.getTags r.name ∈ (process args o).1) := by
  refine ⟨?_, ?_, ?_⟩
  · intro g h
    exact collect_tasks_map_ok applied g input h
  · intro pre x post e hsplit hpre hx
    rw [hsplit]
    exact collect_tasks_first_error applied pre x post e hpre hx
  · intro args o rs h1 r hr
    exact getTags_mem_process h1 hr

/-- C8 at a concrete input: with the middle task failing, the stage returns
that first error. -/
theorem claim_C8_witness :
    collect_tasks exTasks [0, 1, 2] = .error .transport :=
  (claim_C8 exTasks [0, 1, 2]).2.1 [0] 1 [2] .transport rfl
    (by
      intro y hy
      simp only [List.mem_singleton] at hy
      subst hy
      exact ⟨0, rfl⟩)
    rfl

/-- C9: digests are resolved independently per tag with no deduplication — a
successful digest stage returns exactly one record per input tag, in order,
each referencing its own tag (so two tags sharing a digest give two records);
and the delete loop issues exactly one DELETE per record, so a shared digest
is deleted once per tag. -/
theorem claim_C9 (o : Oracle) (tps : List Tag) (ds : List TagDigest)
    (h : digestStage o tps = .ok ds) :
    ds.map TagDigest.tag = tps
    ∧ ds.length = tps.length
    ∧ (∀ l : List Blob,
        (∀ b ∈ l, delete_digest
          (o.deleteManifest b.tag_digest.tag.repo.name b.tag_digest.digest) = .ok ()) →
        (pruneLoop o l).1 = l.map mkDeleteCall) := by
  have hmap := digestStage_ok_map_tag h
  refine ⟨hmap, ?_, ?_⟩
  · rw [← hmap, List.length_map]
  · intro l hl
    rw [pruneLoop_all_ok hl]

/-- C9 at a concrete input: two tags resolving to the same digest give two
records, and the loop issues two DELETE calls for that one digest. -/
theorem claim_C9_witness :
    ([TagDigest.mk "sha-same" exTagA, TagDigest.mk "sha-same" exTagB].map
        TagDigest.tag = [exTagA, exTagB])
    ∧ (pruneLoop exOracleShared
        [⟨⟨"sha-same", exTagA⟩, 0⟩, ⟨⟨"sha-same", exTagB⟩, 0⟩]).1 =
      [Call.deleteManifest "app" "sha-same", Call.deleteManifest "app" "sha-same"] := by
  have h := claim_C9 exOracleShared [exTagA, exTagB]
    [TagDigest.mk "sha-same" exTagA, TagDigest.mk "sha-same" exTagB] rfl
  refine ⟨h.1, ?_⟩
  rw [h.2.2 [⟨⟨"sha-same", exTagA⟩, 0⟩, ⟨⟨"sha-same", exTagB⟩, 0⟩]
    (by
      intro b hb
      simp only [List.mem_cons, List.mem_singleton] at hb
      rcases hb with rfl | rfl | h'
      · rfl
      · rfl
      · cases h')]
  decide

/-- C10: the dry-run flag influences nothing before the pruner — two runs
differing only in that flag issue the same non-DELETE calls (which are
exactly the read-phase calls), and compute the same deletable records. -/
theorem claim_C10 (a1 a2 : Args) (o : Oracle)
    (_hreg : a1.registry = a2.registry) (hret : a1.retention = a2.retention) :
    (process a1 o).1.filter (fun c => !c.isDelete) =
      (process a2 o).1.filter (fun c => !c.isDelete)
    ∧ (process a1 o).1.filter (fun c => !c.isDelete) = (readPhase o).1
    ∧ deletable_records a1.retention o = deletable_records a2.retention o := by
  refine ⟨?_, process_filter_not_delete, ?_⟩
  · rw [process_filter_not_delete, process_filter_not_delete]
  · rw [hret]

/-- C10 at a concrete input: the wet and dry runs over the example registry
issue identical non-DELETE calls. -/
theorem claim_C10_witness :
    (process exArgs exOracle).1.filter (fun c => !c.isDelete) =
      (process exArgsDry exOracle).1.filter (fun c => !c.isDelete) :=
  (claim_C10 exArgs exArgsDry exOracle rfl rfl).1

end DRC
